import Mathlib

/-!
Verification of the turing.js Enumerable module (`src/turing.enumerable.js`).

The module is a functional-iteration utility over "enumerables": true JavaScript
arrays, array-likes (values exposing a numeric `length`), and plain keyed
mappings.  Its traversal primitive `each` dispatches between a native fast path
and two generic loops, and implements early termination by catching a thrown
`Break` sentinel.  All other operations (`map`, `filter`, `reject`, `detect`,
`reduce`, `some`, `all`, `include`, `pluck`, `tail`, the `Chainer`) are built on
`each` or on the corresponding native array method.

Shallow-embedding conventions:
* JavaScript values are the inductive `JSVal`; numbers are modelled as `Int`
  (no NaN or fractional values occur in the library's own code paths).
* A thrown value is a `Thrown`: either the `Break` sentinel (a dedicated object
  `{}` in the source) or an ordinary value.  The catch of `each` compares the
  caught value against the sentinel with JavaScript loose equality
  (`e != global.enumerable.Break`), which also matches the primitive string
  "[object Object]"; `looseEqBreak` models that test.  Fallible computations
  return `Except Thrown _`.
* Callbacks receive an explicit receiver argument (JavaScript's `this`) ahead
  of the usual `(value, indexOrKey, collection)` arguments.
* Iteration is split into a callback-independent iteration plan
  (`invocations`, the finite list of calls a traversal will attempt, in order)
  and runners that apply a callback or an accumulating step to that plan.
  This is faithful because enumerables are structurally immutable during
  traversal (the spec leaves mutation during iteration undefined) and the
  source loops fix their bounds and key sets up front.
* The helpers `isNumber`, `isArray` and `bind` live in `turing.core.js`, which
  is not part of the sources; they are modelled from the spec where noted.
-/

set_option linter.unusedVariables false

namespace Turing.Enumerable

/-- JavaScript values, as far as the Enumerable module observes them.
Numbers are modelled as integers; arrays are finite lists; plain objects are
ordered association lists of own enumerable properties (for-in order). -/
inductive JSVal where
  | undefined
  | null
  | bool (b : Bool)
  | num (n : Int)
  | str (s : String)
  | arr (elems : List JSVal)
  | obj (props : List (String × JSVal))

/-- Values a callback can make propagate out of its invocation: the Break
sentinel `turing.enumerable.Break` (the dedicated object `{}` thrown to stop
iteration) or any other JavaScript value.  The catch of `each` tests the
caught value against the sentinel with loose equality (see `looseEqBreak`). -/
inductive Thrown where
  | brk
  | val (v : JSVal)

/-- The TypeError raised by the host when a property of `null`/`undefined` is
read or a non-callable value is invoked. Modelled as an ordinary string value;
only its distinctness from the values the catch swallows matters here. -/
def typeError : JSVal := .str "TypeError"

/-- The catch's test, `e == global.enumerable.Break` under JavaScript loose
equality (the source re-raises when `e != global.enumerable.Break`).  Break
is a plain object `{}`, so the test holds for: the Break object itself
(object-to-object loose equality is reference equality), and the primitive
string "[object Object]" -- comparing a primitive string with an object
coerces the object with ToPrimitive, and `({}).toString()` is
"[object Object]".  A primitive number compares via ToNumber("[object
Object]") = NaN and never matches; booleans, `null` and `undefined` never
match an object; any other thrown object is a different reference (the model
has no aliasing, so a thrown `JSVal.obj`/`JSVal.arr` is never the sentinel,
which is represented by `Thrown.brk`). -/
def looseEqBreak : Thrown → Bool
  | .brk => true
  | .val (.str s) => s == "[object Object]"
  | .val _ => false

/-- JavaScript ToBoolean (truthiness). `undefined`, `null`, `false`, `0` and
the empty string are falsy; objects and arrays are always truthy.  (NaN, the
other falsy value, does not arise: numbers are modelled as integers.) -/
def toBool : JSVal → Bool
  | .undefined => false
  | .null => false
  | .bool b => b
  | .num n => n != 0
  | .str s => s != ""
  | .arr _ => true
  | .obj _ => true

/-- Modelled from the spec: `turing.core.js` (not under `src/`) supplies
`global.isNumber`; the spec's dispatch reads "Else if the value exposes a
numeric length", so `isNumber` holds exactly of number values. -/
def isNumber : JSVal → Bool
  | .num _ => true
  | _ => false

/-- Modelled from the spec: `turing.core.js` (not under `src/`) supplies
`global.isArray`, the "true ordered sequence" test of the spec; it holds
exactly of true arrays. -/
def isArray : JSVal → Bool
  | .arr _ => true
  | _ => false

/-- Property read `v[k]` for non-null values.  Arrays and strings expose their
`length`; plain objects expose their own properties; other property reads on
primitives yield `undefined` (prototype methods are not modelled as data --
the native-method identity checks are modelled by `isArray` dispatch). -/
def getProp (v : JSVal) (k : String) : JSVal :=
  match v with
  | .arr xs => if k = "length" then .num xs.length else .undefined
  | .str s => if k = "length" then .num s.length else .undefined
  | .obj props => (props.lookup k).getD .undefined
  | _ => .undefined

/-- Integer-indexed read `v[i]`, used by the numeric-length branch of `each`.
On arrays it reads the element, on strings the one-character string, on
objects the property named by the decimal index, else `undefined`. -/
def getIdx (v : JSVal) (i : Nat) : JSVal :=
  match v with
  | .arr xs => xs.getD i .undefined
  | .str s => match s.toList.get? i with
    | Option.some c => .str c.toString
    | Option.none => .undefined
  | .obj props => (props.lookup (toString i)).getD .undefined
  | _ => .undefined

/-- Numeric `length` of a value as a loop bound: the value of `v.length` when
it is a number (a negative length runs the loop zero times), else `0`. -/
def lenNat (v : JSVal) : Nat :=
  match getProp v "length" with
  | .num n => n.toNat
  | _ => 0

/-- Pairs each list element with its index, starting at `n`. -/
def zipIdxFrom (n : Nat) : List JSVal → List (Nat × JSVal)
  | [] => []
  | v :: rest => (n, v) :: zipIdxFrom (n + 1) rest

/-- One attempted callback call of a traversal: the receiver (`this`) the
callback will be invoked with, and its `(value, indexOrKey, collection)`
arguments. -/
structure Invocation where
  receiver : JSVal
  value : JSVal
  key : JSVal
  coll : JSVal

/-- Iteration plan of `each(enumerable, callback, context)` (the calls the
source's loops attempt, in order), or the value thrown before any call.
Mirrors the dispatch of `each` (src/turing.enumerable.js lines 38-47):
1. reading `enumerable.forEach` on `null`/`undefined` throws a TypeError;
2. a true array takes native `forEach` (receiver = the passed context);
3. else a value with numeric `length` is iterated by index `0..length-1`,
   receiver = the collection itself, key = the numeric index;
4. else the own enumerable keys are iterated, receiver = context, key = the
   property name; non-objects have no own enumerable keys. -/
def invocations (e ctx : JSVal) : Except JSVal (List Invocation) :=
  match e with
  | .null => .error typeError
  | .undefined => .error typeError
  | .arr xs => .ok ((zipIdxFrom 0 xs).map fun p => ⟨ctx, p.2, .num p.1, e⟩)
  | _ =>
    if isNumber (getProp e "length") then
      .ok ((List.range (lenNat e)).map fun i => ⟨e, getIdx e i, .num i, e⟩)
    else
      match e with
      | .obj props => .ok (props.map fun p => ⟨ctx, p.2, .str p.1, e⟩)
      | _ => .ok []

/-- Callback type: receiver (`this`), value, index-or-key, collection; returns
a value or makes a `Thrown` propagate. -/
def Cb : Type := JSVal → JSVal → JSVal → JSVal → Except Thrown JSVal

/-- Reduce-callback type: receiver, memo, value, index-or-key, collection. -/
def Cb4 : Type := JSVal → JSVal → JSVal → JSVal → JSVal → Except Thrown JSVal

/-- Lifts a pure (never-throwing) function to a callback. -/
def pureCb (g : JSVal → JSVal → JSVal → JSVal → JSVal) : Cb :=
  fun r v k c => .ok (g r v k c)

/-- Lifts a pure (never-throwing) function to a reduce callback. -/
def pureCb4 (h : JSVal → JSVal → JSVal → JSVal → JSVal → JSVal) : Cb4 :=
  fun r m v k c => .ok (h r m v k c)

/-- Runs a callback over an iteration plan, stopping at the first thrown
value; the callback's returned values are discarded (as `each` does). -/
def runEach (cb : Cb) : List Invocation → Option Thrown
  | [] => Option.none
  | inv :: rest =>
    match cb inv.receiver inv.value inv.key inv.coll with
    | .ok _ => runEach cb rest
    | .error t => Option.some t

/-- Outcome of the try-block of `each` before the catch: the TypeError of a
`null`/`undefined` dispatch, or whatever the callback made propagate. -/
def eachRaw (e : JSVal) (cb : Cb) (ctx : JSVal) : Except Thrown Unit :=
  match invocations e ctx with
  | .error v => .error (.val v)
  | .ok invs =>
    match runEach cb invs with
    | Option.none => .ok ()
    | Option.some t => .error t

/-- Traversal primitive `each` (src lines 37-53): runs the loops inside
`try`; the catch (`if (e != global.enumerable.Break) throw e`) swallows any
caught value loosely equal to the Break sentinel -- the sentinel itself and
the primitive string "[object Object]" (see `looseEqBreak`) -- and re-raises
anything else unchanged; the passed enumerable is returned on normal or
swallowed completion. -/
def each (e : JSVal) (cb : Cb) (ctx : JSVal) : Except Thrown JSVal :=
  match eachRaw e cb ctx with
  | .ok _ => .ok e
  | .error t => if looseEqBreak t then .ok e else .error t

/-- Runs an accumulating step over an iteration plan.  The step returns the
updated accumulator together with an optional thrown value; this captures the
source's closures, which mutate their captured accumulator and may then throw
(Break or otherwise).  Returns the accumulator at the moment iteration
stopped, plus what was thrown, if anything. -/
def runFold (step : σ → Invocation → σ × Option Thrown) :
    σ → List Invocation → σ × Option Thrown
  | s, [] => (s, Option.none)
  | s, inv :: rest =>
    match step s inv with
    | (s', Option.none) => runFold step s' rest
    | (s', Option.some t) => (s', Option.some t)

/-- The each-plus-closure pattern shared by the fallback implementations: run
the step over the plan inside `each`'s try/catch, keep the accumulator that
the closure built, swallow any caught value loosely equal to Break (the
sentinel and the string "[object Object]", as in `each`), and re-raise any
other thrown value unchanged. -/
def eachState (e ctx : JSVal) (step : σ → Invocation → σ × Option Thrown)
    (init : σ) : Except Thrown σ :=
  match invocations e ctx with
  | .error v => if looseEqBreak (.val v) then .ok init else .error (.val v)
  | .ok invs =>
    match runFold step init invs with
    | (s, Option.none) => .ok s
    | (s, Option.some t) => if looseEqBreak t then .ok s else .error t

/-- Strict equality `===` as `include`'s membership test uses it.  Primitives
compare by value; arrays and objects compare by reference in JavaScript, and
since the model has no aliasing, two such values are distinct references and
compare unequal.  Both the native (`indexOf`) path and the fallback scan use
this same test, so their equivalence is insensitive to this modelling. -/
def strictEq (a b : JSVal) : Bool :=
  match a, b with
  | .undefined, .undefined => true
  | .null, .null => true
  | .bool x, .bool y => x == y
  | .num x, .num y => x == y
  | .str x, .str y => x == y
  | _, _ => false

/-- Native `Array.prototype.map` loop over the indexed elements: callback
receiver is the passed context, arguments `(value, index, array)`; a thrown
value propagates (the native path has no catch). -/
def mapArrGo (f : Cb) (ctx coll : JSVal) :
    List (Nat × JSVal) → Except Thrown (List JSVal)
  | [] => .ok []
  | (i, v) :: rest =>
    match f ctx v (.num i) coll with
    | .ok r => (mapArrGo f ctx coll rest).map fun tl => r :: tl
    | .error t => .error t

/-- Native fast path of `map` (src line 68): `enumerable.map(callback, context)`. -/
def mapArr (xs : List JSVal) (f : Cb) (ctx : JSVal) : Except Thrown JSVal :=
  (mapArrGo f ctx (.arr xs) (zipIdxFrom 0 xs)).map .arr

/-- Native `Array.prototype.filter` loop: keeps elements whose callback result
is truthy. -/
def filterArrGo (f : Cb) (ctx coll : JSVal) :
    List (Nat × JSVal) → Except Thrown (List JSVal)
  | [] => .ok []
  | (i, v) :: rest =>
    match f ctx v (.num i) coll with
    | .ok r => (filterArrGo f ctx coll rest).map fun tl =>
        if toBool r then v :: tl else tl
    | .error t => .error t

/-- Native fast path of `filter` (src line 93): `enumerable.filter(callback, context)`. -/
def filterArr (xs : List JSVal) (f : Cb) (ctx : JSVal) : Except Thrown JSVal :=
  (filterArrGo f ctx (.arr xs) (zipIdxFrom 0 xs)).map .arr

/-- Native `Array.prototype.reduce` with an initial memo: a left fold calling
the (context-bound) callback with `(memo, value, index, array)`. -/
def reduceArrGo (f : Cb4) (ctx coll : JSVal) :
    JSVal → List (Nat × JSVal) → Except Thrown JSVal
  | memo, [] => .ok memo
  | memo, (i, v) :: rest =>
    match f ctx memo v (.num i) coll with
    | .ok memo' => reduceArrGo f ctx coll memo' rest
    | .error t => .error t

/-- Native fast path of `reduce` (src line 173):
`enumerable.reduce(global.bind(callback, context), memo)`.  `global.bind` is
from `turing.core.js` (not under `src/`); modelled from the spec ("with
context bound via a callback-wrapping adapter") as fixing the callback's
receiver to the context. -/
def reduceArr (xs : List JSVal) (memo : JSVal) (f : Cb4) (ctx : JSVal) :
    Except Thrown JSVal :=
  reduceArrGo f ctx (.arr xs) memo (zipIdxFrom 0 xs)

/-- Native `Array.prototype.some` loop: stops at the first truthy callback
result and yields the Boolean `true`; yields `false` after a full pass. -/
def someArrGo (f : Cb) (ctx coll : JSVal) :
    List (Nat × JSVal) → Except Thrown Bool
  | [] => .ok false
  | (i, v) :: rest =>
    match f ctx v (.num i) coll with
    | .ok r => if toBool r then .ok true else someArrGo f ctx coll rest
    | .error t => .error t

/-- Native fast path of `some` (src line 266): `enumerable.some(callback, context)`;
the result is always a Boolean. -/
def someArr (xs : List JSVal) (f : Cb) (ctx : JSVal) : Except Thrown JSVal :=
  (someArrGo f ctx (.arr xs) (zipIdxFrom 0 xs)).map .bool

/-- Native `Array.prototype.every` loop: stops at the first falsy callback
result and yields the Boolean `false`; yields `true` after a full pass. -/
def everyArrGo (f : Cb) (ctx coll : JSVal) :
    List (Nat × JSVal) → Except Thrown Bool
  | [] => .ok true
  | (i, v) :: rest =>
    match f ctx v (.num i) coll with
    | .ok r => if toBool r then everyArrGo f ctx coll rest else .ok false
    | .error t => .error t

/-- Native fast path of `all` (src line 293): `enumerable.every(callback, context)`;
the result is always a Boolean. -/
def everyArr (xs : List JSVal) (f : Cb) (ctx : JSVal) : Except Thrown JSVal :=
  (everyArrGo f ctx (.arr xs) (zipIdxFrom 0 xs)).map .bool

/-- Native fast path of `include` (src line 316):
`enumerable.indexOf(target) != -1`, i.e. whether some element is strictly
equal to the target. -/
def includeArr (xs : List JSVal) (t : JSVal) : JSVal :=
  .bool (xs.any fun v => strictEq v t)

/-- Per-element step of `map`'s fallback closure (src line 71): push
`callback.call(context, value, index, list)` onto the results. -/
def mapStep (f : Cb) (ctx : JSVal) (rs : List JSVal) (inv : Invocation) :
    List JSVal × Option Thrown :=
  match f ctx inv.value inv.key inv.coll with
  | .ok r => (rs ++ [r], Option.none)
  | .error t => (rs, Option.some t)

/-- Fallback path of `map` (src lines 69-73): iterate with `each`, pushing
`callback.call(context, value, index, list)` onto a fresh results array. -/
def mapFallback (e : JSVal) (f : Cb) (ctx : JSVal) : Except Thrown JSVal :=
  (eachState e ctx (mapStep f ctx) []).map .arr

/-- Per-element step of `filter`'s fallback closure (src lines 96-104): when
the callback result is truthy, push the pair `[index, value]` if `pushIndex`
is set, else the bare value. -/
def filterStep (f : Cb) (ctx : JSVal) (pushIndex : Bool) (rs : List JSVal)
    (inv : Invocation) : List JSVal × Option Thrown :=
  match f ctx inv.value inv.key inv.coll with
  | .ok r =>
    (if toBool r then
      rs ++ [if pushIndex then .arr [inv.key, inv.value] else inv.value]
    else rs, Option.none)
  | .error t => (rs, Option.some t)

/-- Fallback path of `filter` (src lines 94-105): iterate with `each` with
`pushIndex = !global.isArray(enumerable)` computed up front. -/
def filterFallback (e : JSVal) (f : Cb) (ctx : JSVal) : Except Thrown JSVal :=
  (eachState e ctx (filterStep f ctx (!isArray e)) []).map .arr

/-- Per-element step of `reduce`'s fallback closure (src line 175):
re-assign `memo = callback.call(context, memo, value, index, list)`. -/
def reduceStep (f : Cb4) (ctx : JSVal) (m : JSVal) (inv : Invocation) :
    JSVal × Option Thrown :=
  match f ctx m inv.value inv.key inv.coll with
  | .ok m' => (m', Option.none)
  | .error t => (m, Option.some t)

/-- Fallback path of `reduce` (src lines 174-177): iterate with `each`,
folding the memo through the callback. -/
def reduceFallback (e : JSVal) (memo : JSVal) (f : Cb4) (ctx : JSVal) :
    Except Thrown JSVal :=
  eachState e ctx (reduceStep f ctx) memo

/-- Per-element step of `detect`'s closure (src lines 146-151): when the
callback result is truthy, record the element as the result and throw Break. -/
def detectStep (f : Cb) (ctx : JSVal) (res : JSVal) (inv : Invocation) :
    JSVal × Option Thrown :=
  match f ctx inv.value inv.key inv.coll with
  | .ok r =>
    if toBool r then (inv.value, Option.some .brk) else (res, Option.none)
  | .error t => (res, Option.some t)

/-- Per-element step of `some`'s fallback closure (src lines 268-272): assign
`result = callback.call(context, value, index, list)` and throw Break when
the assigned value is truthy. -/
def someStep (f : Cb) (ctx : JSVal) (res : JSVal) (inv : Invocation) :
    JSVal × Option Thrown :=
  match f ctx inv.value inv.key inv.coll with
  | .ok r => (r, if toBool r then Option.some .brk else Option.none)
  | .error t => (res, Option.some t)

/-- Fallback path of `some` (src lines 267-273): `result` starts as `false`;
the raw last-assigned callback value (not a coerced Boolean) is returned. -/
def someFallback (e : JSVal) (f : Cb) (ctx : JSVal) : Except Thrown JSVal :=
  eachState e ctx (someStep f ctx) (.bool false)

/-- Per-element step of `all`'s fallback closure (src lines 295-299): assign
`result = result && callback.call(...)` -- JavaScript `&&` short-circuits on
a falsy left operand and evaluates to an operand, not a Boolean -- and throw
Break when the assigned value is falsy. -/
def allStep (f : Cb) (ctx : JSVal) (res : JSVal) (inv : Invocation) :
    JSVal × Option Thrown :=
  if toBool res then
    match f ctx inv.value inv.key inv.coll with
    | .ok r => (r, if toBool r then Option.none else Option.some .brk)
    | .error t => (res, Option.some t)
  else (res, Option.some .brk)

/-- Fallback path of `all` (src lines 294-300): `result` starts as `true`;
the raw last-assigned value is returned. -/
def allFallback (e : JSVal) (f : Cb) (ctx : JSVal) : Except Thrown JSVal :=
  eachState e ctx (allStep f ctx) (.bool true)

/-- Per-element step of `include`'s fallback closure (src lines 318-322):
assign `found = value === target` and throw Break at the first match. -/
def includeStep (t : JSVal) (_found : JSVal) (inv : Invocation) :
    JSVal × Option Thrown :=
  (.bool (strictEq inv.value t),
   if strictEq inv.value t then Option.some .brk else Option.none)

/-- Fallback path of `include` (src lines 317-323): linear scan; `each` is
called without a context. -/
def includeFallback (e t : JSVal) : Except Thrown JSVal :=
  eachState e .undefined (includeStep t) (.bool false)

/-- Operation `map` (src lines 67-74): native fast path when the value's
`map` is the unshadowed `Array.prototype.map` (true arrays in the model),
else the `each`-based fallback. -/
def map (e : JSVal) (f : Cb) (ctx : JSVal) : Except Thrown JSVal :=
  match e with
  | .arr xs => mapArr xs f ctx
  | _ => mapFallback e f ctx

/-- Operation `filter` (src lines 91-106): native fast path on true arrays,
else the `each`-based fallback with `[index, value]` pairing. -/
def filter (e : JSVal) (f : Cb) (ctx : JSVal) : Except Thrown JSVal :=
  match e with
  | .arr xs => filterArr xs f ctx
  | _ => filterFallback e f ctx

/-- Operation `reject` (src lines 123-127), as called directly on the module
(`this` = the module object, so `this.filter` is the operation `filter`):
filter on the wrapper callback `function() { return !callback.apply(context,
arguments); }`, which forwards `(value, index, list)` to the callback with
the context as receiver and returns the Boolean negation of its result's
truthiness. -/
def reject (e : JSVal) (f : Cb) (ctx : JSVal) : Except Thrown JSVal :=
  filter e (fun _this v k c =>
    match f ctx v k c with
    | .ok r => .ok (.bool (!toBool r))
    | .error t => .error t) ctx

/-- Operation `detect` (src lines 144-153): no native path; iterate with
`each`, record the first value whose callback result is truthy and throw
Break; `result` starts out `undefined`. -/
def detect (e : JSVal) (f : Cb) (ctx : JSVal) : Except Thrown JSVal :=
  eachState e ctx (detectStep f ctx) .undefined

/-- Operation `reduce` (src lines 171-178): native fold on true arrays, else
the `each`-based fallback. -/
def reduce (e : JSVal) (memo : JSVal) (f : Cb4) (ctx : JSVal) :
    Except Thrown JSVal :=
  match e with
  | .arr xs => reduceArr xs memo f ctx
  | _ => reduceFallback e memo f ctx

/-- Slice start index: JavaScript `slice(start)` counts a negative start from
the end and clamps into range. -/
def sliceFrom (len : Nat) (s : Int) : Nat :=
  if s < 0 then (len + s).toNat else s.toNat

/-- Operation `tail` (src lines 209-212): `Array.prototype.slice.apply(enumerable,
[start])` with `start` defaulting to 1.  Slice reads the numeric `length` (0
when absent) and the integer-indexed elements, producing a new array. -/
def tail (e : JSVal) (start : Option Int) : JSVal :=
  let s := start.getD 1
  match e with
  | .arr xs => .arr (xs.drop (sliceFrom xs.length s))
  | _ =>
    let len := lenNat e
    .arr (((List.range len).drop (sliceFrom len s)).map (getIdx e))

/-- Property read used by `pluck`'s callback: `value[key]` throws a TypeError
on `null`/`undefined`, else reads the property. -/
def getPropE (v : JSVal) (k : String) : Except Thrown JSVal :=
  match v with
  | .null => .error (.val typeError)
  | .undefined => .error (.val typeError)
  | _ => .ok (getProp v k)

/-- Operation `pluck` (src lines 243-247): map each element to `value[key]`
(`map` is called without a context). -/
def pluck (e : JSVal) (key : String) : Except Thrown JSVal :=
  map e (fun _r v _k _c => getPropE v key) .undefined

/-- Default callback of `some` and `all` (src lines 343-345):
`identity(value)` returns its first argument, the element itself. -/
def identity : Cb := fun _this value _k _c => .ok value

/-- Operation `some` (src lines 263-274): defaults the callback to
`identity`, then native fast path on true arrays (Boolean result), else the
`each`-based fallback (raw last-assigned result). -/
def some (e : JSVal) (fOpt : Option Cb) (ctx : JSVal) : Except Thrown JSVal :=
  let f := fOpt.getD identity
  match e with
  | .arr xs => someArr xs f ctx
  | _ => someFallback e f ctx

/-- Operation `all` (src lines 290-301): defaults the callback to `identity`,
then native fast path on true arrays (Boolean result), else the `each`-based
fallback (raw last-assigned result). -/
def all (e : JSVal) (fOpt : Option Cb) (ctx : JSVal) : Except Thrown JSVal :=
  let f := fOpt.getD identity
  match e with
  | .arr xs => everyArr xs f ctx
  | _ => allFallback e f ctx

/-- Operation `include` (src lines 314-324): native `indexOf` on true arrays,
else the `each`-based linear scan. -/
def «include» (e t : JSVal) : Except Thrown JSVal :=
  match e with
  | .arr xs => .ok (includeArr xs t)
  | _ => includeFallback e t

/-- Alias `select = filter` (src line 349). -/
def select : JSVal → Cb → JSVal → Except Thrown JSVal := filter

/-- Alias `collect = map` (src line 350). -/
def collect : JSVal → Cb → JSVal → Except Thrown JSVal := map

/-- Alias `inject = reduce` (src line 351). -/
def inject : JSVal → JSVal → Cb4 → JSVal → Except Thrown JSVal := reduce

/-- Alias `rest = tail` (src line 352). -/
def rest : JSVal → Option Int → JSVal := tail

/-- Alias `any = some` (src line 353). -/
def any : JSVal → Option Cb → JSVal → Except Thrown JSVal := some

/-- Alias `every = all` (src line 354). -/
def every : JSVal → Option Cb → JSVal → Except Thrown JSVal := all

/-- The chainable allow-list `global.chainableMethods` (src lines 355-356),
verbatim. -/
def chainableMethods : List String :=
  ["map", "collect", "detect", "filter", "reduce", "each",
   "tail", "rest", "reject", "pluck", "any", "some", "all"]

/-- Chain Wrapper (src lines 359-361): holds the current results; each
chained call replaces them.  The source mutates the one wrapper object in
place and returns it; the model threads the updated wrapper functionally. -/
structure Chainer where
  results : JSVal

/-- Operation `chain` (src lines 339-341): wraps an enumerable. -/
def chain (e : JSVal) : Chainer := ⟨e⟩

/-- Terminal accessor `values` (src lines 363-365). -/
def Chainer.values (c : Chainer) : JSVal := c.results

/-- Chained `map` (generated wrapper, src lines 367-375): prepends the
current results to the arguments, invokes the operation, stores its return
value as the new results. -/
def Chainer.map (c : Chainer) (f : Cb) (ctx : JSVal) : Except Thrown Chainer :=
  (Turing.Enumerable.map c.results f ctx).map Chainer.mk

/-- Chained `collect`: the generated wrapper captures
`global.enumerable['collect']`, which is the `map` operation. -/
def Chainer.collect : Chainer → Cb → JSVal → Except Thrown Chainer :=
  Chainer.map

/-- Chained `detect`: stores `detect`'s result (the found element) as the new
results. -/
def Chainer.detect (c : Chainer) (f : Cb) (ctx : JSVal) : Except Thrown Chainer :=
  (Turing.Enumerable.detect c.results f ctx).map Chainer.mk

/-- Chained `filter`. -/
def Chainer.filter (c : Chainer) (f : Cb) (ctx : JSVal) : Except Thrown Chainer :=
  (Turing.Enumerable.filter c.results f ctx).map Chainer.mk

/-- Chained `reduce`. -/
def Chainer.reduce (c : Chainer) (memo : JSVal) (f : Cb4) (ctx : JSVal) :
    Except Thrown Chainer :=
  (Turing.Enumerable.reduce c.results memo f ctx).map Chainer.mk

/-- Chained `each`: `each` returns the enumerable it was passed, so the
results are unchanged on normal completion. -/
def Chainer.each (c : Chainer) (cb : Cb) (ctx : JSVal) : Except Thrown Chainer :=
  (Turing.Enumerable.each c.results cb ctx).map Chainer.mk

/-- Chained `tail`. -/
def Chainer.tail (c : Chainer) (start : Option Int) : Chainer :=
  ⟨Turing.Enumerable.tail c.results start⟩

/-- Chained `rest`: captures `global.enumerable['rest']`, which is `tail`. -/
def Chainer.rest : Chainer → Option Int → Chainer :=
  Chainer.tail

/-- Chained `pluck`. -/
def Chainer.pluck (c : Chainer) (key : String) : Except Thrown Chainer :=
  (Turing.Enumerable.pluck c.results key).map Chainer.mk

/-- Chained `some`. -/
def Chainer.some (c : Chainer) (fOpt : Option Cb) (ctx : JSVal) :
    Except Thrown Chainer :=
  (Turing.Enumerable.some c.results fOpt ctx).map Chainer.mk

/-- Chained `any`: captures `global.enumerable['any']`, which is `some`. -/
def Chainer.any : Chainer → Option Cb → JSVal → Except Thrown Chainer :=
  Chainer.some

/-- Chained `all`. -/
def Chainer.all (c : Chainer) (fOpt : Option Cb) (ctx : JSVal) :
    Except Thrown Chainer :=
  (Turing.Enumerable.all c.results fOpt ctx).map Chainer.mk

/-- Holds of the enumerables that take `each`'s integer-index branch (src
line 41): not `null`/`undefined` (those throw first), not a true array (that
takes the native branch), and exposing a numeric `length`. -/
def takesIndexBranch (e : JSVal) : Bool :=
  match e with
  | .null => false
  | .undefined => false
  | .arr _ => false
  | _ => isNumber (getProp e "length")

/-- Holds of the enumerables that take `each`'s keyed-mapping branch (src
lines 43-46): not `null`/`undefined`, not a true array, and without a
numeric `length`. -/
def takesKeyBranch (e : JSVal) : Bool :=
  match e with
  | .null => false
  | .undefined => false
  | .arr _ => false
  | _ => !isNumber (getProp e "length")

/-- The sequence of values a pure callback `g` produces over a traversal of
`e` (empty when the dispatch itself throws): the callback results, in
visit order. -/
def resultsOf (e ctx : JSVal) (g : JSVal → JSVal → JSVal → JSVal → JSVal) :
    List JSVal :=
  match invocations e ctx with
  | .ok invs => invs.map fun inv => g ctx inv.value inv.key inv.coll
  | .error _ => []

/-- A sample predicate callback: is the value an even number? -/
def evenNum : Cb :=
  pureCb fun _this v _k _c =>
    match v with
    | .num n => .bool (n % 2 == 0)
    | _ => .bool false

/-- A sample transform callback: multiply a number by ten. -/
def timesTen : Cb :=
  pureCb fun _this v _k _c =>
    match v with
    | .num n => .num (n * 10)
    | _ => .undefined

/-- The iteration plan as a plain list (empty when the dispatch throws). -/
def invsD (e ctx : JSVal) : List Invocation :=
  (invocations e ctx).toOption.getD []

/-- A sample callback that throws Break at the first truthy element. -/
def cbBreakOnTruthy : Cb :=
  fun _r v _k _c => if toBool v then .error .brk else .ok v

/-- A sample callback that throws an ordinary (non-Break) value. -/
def cbThrowBoom : Cb :=
  fun _r _v _k _c => .error (.val (.str "boom"))

/-- A sample callback that throws the primitive string "[object Object]",
which is loosely equal to the Break object. -/
def cbThrowObjString : Cb :=
  fun _r _v _k _c => .error (.val (.str "[object Object]"))

/-- The identity of callbacks, as a plain function. -/
def idG : JSVal → JSVal → JSVal → JSVal → JSVal := fun _r v _k _c => v

/-- A sample pure predicate: is the value the number 2? -/
def isTwoG : JSVal → JSVal → JSVal → JSVal → JSVal :=
  fun _r v _k _c => .bool (strictEq v (.num 2))

/-- A sample array-like mapping: numeric `length` plus indexed properties. -/
def e7idx : JSVal := .obj [("length", .num 2), ("0", .num 10), ("1", .num 20)]

/-- A sample keyed mapping without a numeric `length`. -/
def e7map : JSVal := .obj [("a", .num 1)]

/-- A sample keyed mapping with one truthy and one falsy value. -/
def e9mixed : JSVal := .obj [("a", .num 2), ("b", .num 0)]

/-- A sample keyed mapping with only truthy values. -/
def e9truthy : JSVal := .obj [("a", .num 5), ("b", .num 7)]

/-- A sample two-entry mapping used for the filter pairing witnesses. -/
def objAB : JSVal := .obj [("a", .num 1), ("b", .num 2)]

/-- How a chained `reject` call can end.  It never stores the rejected
elements (see `Chainer.reject`): either a TypeError escapes to the caller, or
-- when the traversal makes zero callback calls -- the re-entered wrapper
method returns the wrapper object, so the wrapper stores itself as its own
results (a cyclic value, not representable as a `JSVal`). -/
inductive ChainRejectOutcome where
  | threw (t : Thrown)
  | selfReference

/-- Chained `reject`, as the source actually executes it.  The generated
wrapper runs `method.apply(this, args)` with `this` = the Chainer, and
`reject`'s body (src line 124) calls `this.filter(...)` -- which is now the
wrapper's own generated `filter` method, not the engine operation.  That
method prepends the wrapper's current results again, so the engine `filter`
is invoked as `filter(oldResults, oldResults, negatedCallback, undefined)`:
the old results collection lands in the callback position.  No collection
value is callable, so: on a true array the native `Array.prototype.filter`
throws a TypeError up front; on any other value whose traversal attempts at
least one call, invoking the non-callable "callback" throws a TypeError,
which `each` re-raises (it is not Break); only a traversal with zero calls
completes, and then the wrapper method returns the wrapper itself, which
`reject` hands back to be stored as the new results.  The user callback `f`
is wrapped but never invoked, and the supplied context is only used as the
receiver of that never-invoked wrapper. -/
def Chainer.reject (c : Chainer) (_f : Cb) (_ctx : JSVal) : ChainRejectOutcome :=
  match c.results with
  | .arr _ => .threw (.val typeError)
  | e =>
    match invocations e .undefined with
    | .error v => .threw (.val v)
    | .ok [] => .selfReference
    | .ok (_ :: _) => .threw (.val typeError)

end Turing.Enumerable

namespace Turing.Enumerable.FlattenModel

/-!
Allocation model for `flatten` (src lines 190-196).

`flatten` folds over the input with `reduce`, seeded with a fresh `[]`:
nested arrays are flattened recursively and appended with `memo.concat(...)`
(which allocates a new array), other values are appended with
`memo.push(value)` (which mutates `memo` in place).  To reason about
allocation and mutation -- which the main pure model cannot express -- this
model gives every array an identity (`id`), threads a fresh-id counter, and
records the id of every array mutated by a `push`.  A value is "left
unmodified" exactly when its id (and the ids of all arrays nested in it) is
never recorded as mutated.
-/

/-- Nested-array values for the flatten model: an atom (any non-array value,
passed through unchanged) or an array with an identity and its elements. -/
inductive FV (α : Type) where
  | atom (a : α)
  | arr (id : Nat) (elems : List (FV α))

/-- Allocation state: the next fresh array id, and the ids of arrays that
have been mutated in place (by `push`) so far. -/
structure AllocSt where
  next : Nat
  mutated : List Nat

/-- Allocates the fresh empty array `[]` that seeds the fold (src line 191). -/
def allocEmpty (st : AllocSt) : FV α × AllocSt :=
  (.arr st.next [], ⟨st.next + 1, st.mutated⟩)

/-- In-place `memo.push(value)` (src line 193): appends to the array's
elements, keeps its identity, and records the mutation.  (`memo` is always an
array; the atom case is unreachable and returns the value unchanged.) -/
def push (memo v : FV α) (st : AllocSt) : FV α × AllocSt :=
  match memo with
  | .arr i xs => (.arr i (xs ++ [v]), ⟨st.next, i :: st.mutated⟩)
  | .atom a => (.atom a, st)

/-- Models `memo.concat(other)` (src line 192): allocates a new array holding
the elements of both (concat spreads an array argument); neither input is
mutated.  (Both are always arrays; other cases are unreachable.) -/
def concatArr (memo other : FV α) (st : AllocSt) : FV α × AllocSt :=
  match memo, other with
  | .arr _ xs, .arr _ ys => (.arr st.next (xs ++ ys), ⟨st.next + 1, st.mutated⟩)
  | m, _ => (m, st)

mutual

/-- Flattening of an array's element list: `reduce(array, [], callback)`
on a true array is the native left fold, seeded with a freshly allocated
`[]`. -/
def flattenList (xs : List (FV α)) (st : AllocSt) : FV α × AllocSt :=
  let p := allocEmpty (α := α) st
  flattenInto p.1 xs p.2

/-- The fold of `flatten`'s reduce callback (src lines 191-195): a nested
array is flattened recursively and concatenated (`global.isArray(value)` --
the true-array test, modelled from the spec since `turing.core.js` is not
under `src/` -- decides nesting); any other element is pushed in place. -/
def flattenInto (memo : FV α) : List (FV α) → AllocSt → FV α × AllocSt
  | [], st => (memo, st)
  | .arr _i ys :: rst, st =>
    let p := flattenList ys st
    let q := concatArr memo p.1 p.2
    flattenInto q.1 rst q.2
  | .atom a :: rst, st =>
    let p := push memo (.atom a) st
    flattenInto p.1 rst p.2

end

/-- The sample nested input `[[2, 4], [[6], 8]]` with array ids 0-2. -/
def sample : List (FV Int) :=
  [.arr 0 [.atom 2, .atom 4], .arr 1 [.arr 2 [.atom 6], .atom 8]]

mutual

/-- Ids of all arrays occurring in a value (the value itself and every nested
array). -/
def idsOf : FV α → List Nat
  | .atom _ => []
  | .arr i xs => i :: idsOfList xs

/-- Ids of all arrays occurring in a list of values. -/
def idsOfList : List (FV α) → List Nat
  | [] => []
  | v :: rst => idsOf v ++ idsOfList rst

end

end Turing.Enumerable.FlattenModel

namespace Turing.Enumerable

/-! ### Helper lemmas about the traversal runners -/

theorem runFold_mapStep_pure (g : JSVal → JSVal → JSVal → JSVal → JSVal)
    (ctx : JSVal) (invs : List Invocation) : ∀ acc,
    runFold (mapStep (pureCb g) ctx) acc invs
      = (acc ++ invs.map fun inv => g ctx inv.value inv.key inv.coll,
         Option.none) := by
  induction invs with
  | nil => intro acc; simp [runFold]
  | cons inv rst ih => intro acc; simp [runFold, mapStep, pureCb, ih]

theorem runFold_filterStep_pure (g : JSVal → JSVal → JSVal → JSVal → JSVal)
    (ctx : JSVal) (pushIndex : Bool) (invs : List Invocation) : ∀ acc,
    runFold (filterStep (pureCb g) ctx pushIndex) acc invs
      = (acc ++ ((invs.filter fun inv =>
            toBool (g ctx inv.value inv.key inv.coll)).map fun inv =>
              if pushIndex then .arr [inv.key, inv.value] else inv.value),
         Option.none) := by
  induction invs with
  | nil => intro acc; simp [runFold]
  | cons inv rst ih =>
    intro acc
    cases h : toBool (g ctx inv.value inv.key inv.coll) <;>
      simp [runFold, filterStep, pureCb, h, ih, List.filter_cons]

theorem runFold_reduceStep_pure (h : JSVal → JSVal → JSVal → JSVal → JSVal → JSVal)
    (ctx : JSVal) (invs : List Invocation) : ∀ memo,
    runFold (reduceStep (pureCb4 h) ctx) memo invs
      = (invs.foldl (fun m inv => h ctx m inv.value inv.key inv.coll) memo,
         Option.none) := by
  induction invs with
  | nil => intro memo; simp [runFold]
  | cons inv rst ih => intro memo; simp [runFold, reduceStep, pureCb4, ih]

/-- Loop semantics shared by the fallback `some` scan (and `include`): assign
each produced value in turn, stopping with Break at the first truthy one. -/
def someRun (acc : JSVal) : List JSVal → JSVal × Option Thrown
  | [] => (acc, Option.none)
  | r :: rst => if toBool r then (r, Option.some .brk) else someRun r rst

/-- Loop semantics of the fallback `all` scan (entered with a truthy
accumulator): assign each produced value in turn, stopping with Break at the
first falsy one. -/
def allRun (acc : JSVal) : List JSVal → JSVal × Option Thrown
  | [] => (acc, Option.none)
  | r :: rst => if toBool r then allRun r rst else (r, Option.some .brk)

theorem runFold_someStep_pure (g : JSVal → JSVal → JSVal → JSVal → JSVal)
    (ctx : JSVal) (invs : List Invocation) : ∀ acc,
    runFold (someStep (pureCb g) ctx) acc invs
      = someRun acc (invs.map fun inv => g ctx inv.value inv.key inv.coll) := by
  induction invs with
  | nil => intro acc; rfl
  | cons inv rst ih =>
    intro acc
    cases h : toBool (g ctx inv.value inv.key inv.coll) <;>
      simp [runFold, someStep, pureCb, someRun, h, ih]

theorem runFold_allStep_pure (g : JSVal → JSVal → JSVal → JSVal → JSVal)
    (ctx : JSVal) (invs : List Invocation) : ∀ acc, toBool acc = true →
    runFold (allStep (pureCb g) ctx) acc invs
      = allRun acc (invs.map fun inv => g ctx inv.value inv.key inv.coll) := by
  induction invs with
  | nil => intro acc hacc; rfl
  | cons inv rst ih =>
    intro acc hacc
    cases h : toBool (g ctx inv.value inv.key inv.coll) <;>
      simp [runFold, allStep, pureCb, allRun, hacc, h, ih]

theorem runFold_includeStep (t : JSVal) (invs : List Invocation) : ∀ acc,
    runFold (includeStep t) acc invs
      = someRun acc (invs.map fun inv => JSVal.bool (strictEq inv.value t)) := by
  induction invs with
  | nil => intro acc; rfl
  | cons inv rst ih =>
    intro acc
    cases h : strictEq inv.value t <;>
      simp [runFold, includeStep, someRun, toBool, h, ih]

theorem getLast?_getD_cons (x acc : JSVal) (rst : List JSVal) :
    (x :: rst).getLast?.getD acc = rst.getLast?.getD x := by
  cases rst with
  | nil => rfl
  | cons y t =>
    rw [List.getLast?_cons_cons]
    cases h : (y :: t).getLast? with
    | some z => rfl
    | none => exact absurd h (by simp)

theorem someRun_find?_some {rs : List JSVal} {r : JSVal}
    (h : rs.find? toBool = Option.some r) : ∀ acc, someRun acc rs = (r, Option.some .brk) := by
  induction rs with
  | nil => exact absurd h (by simp)
  | cons x rst ih =>
    intro acc
    rw [List.find?_cons] at h
    cases hx : toBool x with
    | true => rw [hx] at h; cases h; simp [someRun, hx]
    | false => rw [hx] at h; simp [someRun, hx]; exact ih h x

theorem someRun_find?_none {rs : List JSVal}
    (h : rs.find? toBool = Option.none) :
    ∀ acc, someRun acc rs = (rs.getLast?.getD acc, Option.none) := by
  induction rs with
  | nil => intro acc; rfl
  | cons x rst ih =>
    intro acc
    rw [List.find?_cons] at h
    cases hx : toBool x with
    | true => rw [hx] at h; cases h
    | false =>
      rw [hx] at h
      rw [getLast?_getD_cons]
      simp [someRun, hx]
      exact ih h x

theorem allRun_find?_some {rs : List JSVal} {r : JSVal}
    (h : rs.find? (fun x => !toBool x) = Option.some r) :
    ∀ acc, allRun acc rs = (r, Option.some .brk) := by
  induction rs with
  | nil => exact absurd h (by simp)
  | cons x rst ih =>
    intro acc
    rw [List.find?_cons] at h
    cases hx : toBool x with
    | true => rw [hx] at h; simp [allRun, hx]; exact ih h x
    | false => rw [hx] at h; cases h; simp [allRun, hx]

theorem allRun_find?_none {rs : List JSVal}
    (h : rs.find? (fun x => !toBool x) = Option.none) :
    ∀ acc, allRun acc rs = (rs.getLast?.getD acc, Option.none) := by
  induction rs with
  | nil => intro acc; rfl
  | cons x rst ih =>
    intro acc
    rw [List.find?_cons] at h
    cases hx : toBool x with
    | true =>
      rw [hx] at h
      rw [getLast?_getD_cons]
      simp [allRun, hx]
      exact ih h x
    | false => rw [hx] at h; exact Option.noConfusion h

end Turing.Enumerable

namespace Turing.Enumerable

/-! ### Pure-callback characterizations of the two paths -/

theorem someRun_snd (rs : List JSVal) : ∀ acc,
    (someRun acc rs).2 = Option.none ∨ (someRun acc rs).2 = Option.some .brk := by
  induction rs with
  | nil => intro acc; exact Or.inl rfl
  | cons x rst ih =>
    intro acc
    cases hx : toBool x with
    | true => simp [someRun, hx]
    | false => simp [someRun, hx]; exact ih x

theorem allRun_snd (rs : List JSVal) : ∀ acc,
    (allRun acc rs).2 = Option.none ∨ (allRun acc rs).2 = Option.some .brk := by
  induction rs with
  | nil => intro acc; exact Or.inl rfl
  | cons x rst ih =>
    intro acc
    cases hx : toBool x with
    | true => simp [allRun, hx]; exact ih x
    | false => simp [allRun, hx]

/-- The dispatch of `invocations` can only throw the TypeError of a
`null`/`undefined` property read. -/
theorem invocations_error_typeError (e ctx v : JSVal)
    (h : invocations e ctx = .error v) : v = typeError := by
  cases e with
  | null => exact (Except.error.inj h).symm
  | undefined => exact (Except.error.inj h).symm
  | arr xs => exact Except.noConfusion h
  | bool b => exact Except.noConfusion h
  | num n => exact Except.noConfusion h
  | str st => exact Except.noConfusion h
  | obj props =>
    rw [show invocations (.obj props) ctx
      = (if isNumber (getProp (.obj props) "length") then
          .ok ((List.range (lenNat (.obj props))).map fun i =>
            ⟨.obj props, getIdx (.obj props) i, .num i, .obj props⟩)
        else .ok (props.map fun p => ⟨ctx, p.2, .str p.1, .obj props⟩)) from rfl] at h
    split at h
    · exact Except.noConfusion h
    · exact Except.noConfusion h

theorem mapFallback_pure (e ctx : JSVal) (g : JSVal → JSVal → JSVal → JSVal → JSVal) :
    mapFallback e (pureCb g) ctx
      = match invocations e ctx with
        | .error v => .error (.val v)
        | .ok invs =>
          .ok (.arr (invs.map fun inv => g ctx inv.value inv.key inv.coll)) := by
  cases hI : invocations e ctx with
  | error v =>
    have hv := invocations_error_typeError e ctx v hI
    subst hv
    simp [mapFallback, eachState, hI, Except.map,
      show looseEqBreak (.val typeError) = false from rfl]
  | ok invs => simp [mapFallback, eachState, hI, runFold_mapStep_pure, Except.map]

theorem filterFallback_pure (e ctx : JSVal) (g : JSVal → JSVal → JSVal → JSVal → JSVal) :
    filterFallback e (pureCb g) ctx
      = match invocations e ctx with
        | .error v => .error (.val v)
        | .ok invs =>
          .ok (.arr ((invs.filter fun inv =>
              toBool (g ctx inv.value inv.key inv.coll)).map fun inv =>
                if !isArray e then .arr [inv.key, inv.value] else inv.value)) := by
  cases hI : invocations e ctx with
  | error v =>
    have hv := invocations_error_typeError e ctx v hI
    subst hv
    simp [filterFallback, eachState, hI, Except.map,
      show looseEqBreak (.val typeError) = false from rfl]
  | ok invs => simp [filterFallback, eachState, hI, runFold_filterStep_pure, Except.map]

theorem reduceFallback_pure (e ctx memo : JSVal)
    (h : JSVal → JSVal → JSVal → JSVal → JSVal → JSVal) :
    reduceFallback e memo (pureCb4 h) ctx
      = match invocations e ctx with
        | .error v => .error (.val v)
        | .ok invs =>
          .ok (invs.foldl (fun m inv => h ctx m inv.value inv.key inv.coll) memo) := by
  cases hI : invocations e ctx with
  | error v =>
    have hv := invocations_error_typeError e ctx v hI
    subst hv
    simp [reduceFallback, eachState, hI,
      show looseEqBreak (.val typeError) = false from rfl]
  | ok invs => simp [reduceFallback, eachState, hI, pureCb4, runFold_reduceStep_pure]

theorem someFallback_pure (e ctx : JSVal) (g : JSVal → JSVal → JSVal → JSVal → JSVal) :
    someFallback e (pureCb g) ctx
      = match invocations e ctx with
        | .error v => .error (.val v)
        | .ok invs =>
          .ok ((someRun (.bool false)
            (invs.map fun inv => g ctx inv.value inv.key inv.coll)).1) := by
  cases hI : invocations e ctx with
  | error v =>
    have hv := invocations_error_typeError e ctx v hI
    subst hv
    simp [someFallback, eachState, hI,
      show looseEqBreak (.val typeError) = false from rfl]
  | ok invs =>
    simp only [someFallback, eachState, hI, runFold_someStep_pure]
    rcases hsr : someRun (JSVal.bool false)
      (invs.map fun inv => g ctx inv.value inv.key inv.coll) with ⟨s, o⟩
    have hsnd := someRun_snd (invs.map fun inv => g ctx inv.value inv.key inv.coll)
      (JSVal.bool false)
    rw [hsr] at hsnd
    rw [hsr]
    cases o with
    | none => rfl
    | some t =>
      cases t with
      | brk => rfl
      | val v => rcases hsnd with h0 | h0 <;> exact absurd h0 (by simp)

theorem allFallback_pure (e ctx : JSVal) (g : JSVal → JSVal → JSVal → JSVal → JSVal) :
    allFallback e (pureCb g) ctx
      = match invocations e ctx with
        | .error v => .error (.val v)
        | .ok invs =>
          .ok ((allRun (.bool true)
            (invs.map fun inv => g ctx inv.value inv.key inv.coll)).1) := by
  cases hI : invocations e ctx with
  | error v =>
    have hv := invocations_error_typeError e ctx v hI
    subst hv
    simp [allFallback, eachState, hI,
      show looseEqBreak (.val typeError) = false from rfl]
  | ok invs =>
    simp only [allFallback, eachState, hI]
    rw [runFold_allStep_pure g ctx invs (JSVal.bool true) rfl]
    rcases hsr : allRun (JSVal.bool true)
      (invs.map fun inv => g ctx inv.value inv.key inv.coll) with ⟨s, o⟩
    have hsnd := allRun_snd (invs.map fun inv => g ctx inv.value inv.key inv.coll)
      (JSVal.bool true)
    rw [hsr] at hsnd
    rw [hsr]
    cases o with
    | none => rfl
    | some t =>
      cases t with
      | brk => rfl
      | val v => rcases hsnd with h0 | h0 <;> exact absurd h0 (by simp)

theorem includeFallback_spec (e t : JSVal) :
    includeFallback e t
      = match invocations e .undefined with
        | .error v => .error (.val v)
        | .ok invs =>
          .ok ((someRun (.bool false)
            (invs.map fun inv => JSVal.bool (strictEq inv.value t))).1) := by
  cases hI : invocations e .undefined with
  | error v =>
    have hv := invocations_error_typeError e .undefined v hI
    subst hv
    simp [includeFallback, eachState, hI,
      show looseEqBreak (.val typeError) = false from rfl]
  | ok invs =>
    simp only [includeFallback, eachState, hI, runFold_includeStep]
    rcases hsr : someRun (JSVal.bool false)
      (invs.map fun inv => JSVal.bool (strictEq inv.value t)) with ⟨s, o⟩
    have hsnd := someRun_snd (invs.map fun inv => JSVal.bool (strictEq inv.value t))
      (JSVal.bool false)
    rw [hsr] at hsnd
    rw [hsr]
    cases o with
    | none => rfl
    | some t2 =>
      cases t2 with
      | brk => rfl
      | val v => rcases hsnd with h0 | h0 <;> exact absurd h0 (by simp)

theorem mapArrGo_pure (g : JSVal → JSVal → JSVal → JSVal → JSVal) (ctx coll : JSVal) :
    ∀ l, mapArrGo (pureCb g) ctx coll l
      = .ok (l.map fun p => g ctx p.2 (.num p.1) coll) := by
  intro l
  induction l with
  | nil => rfl
  | cons p rst ih => simp [mapArrGo, pureCb, ih, Except.map]

theorem filterArrGo_pure (g : JSVal → JSVal → JSVal → JSVal → JSVal) (ctx coll : JSVal) :
    ∀ l, filterArrGo (pureCb g) ctx coll l
      = .ok (((l.filter fun p => toBool (g ctx p.2 (.num p.1) coll)).map Prod.snd)) := by
  intro l
  induction l with
  | nil => rfl
  | cons p rst ih =>
    cases hp : toBool (g ctx p.2 (.num p.1) coll) <;>
      simp [filterArrGo, pureCb, hp, ih, List.filter_cons, Except.map]

theorem reduceArrGo_pure (h : JSVal → JSVal → JSVal → JSVal → JSVal → JSVal)
    (ctx coll : JSVal) :
    ∀ l memo, reduceArrGo (pureCb4 h) ctx coll memo l
      = .ok (l.foldl (fun m p => h ctx m p.2 (.num p.1) coll) memo) := by
  intro l
  induction l with
  | nil => intro memo; rfl
  | cons p rst ih => intro memo; simp [reduceArrGo, pureCb4, ih]

theorem someArrGo_pure (g : JSVal → JSVal → JSVal → JSVal → JSVal) (ctx coll : JSVal) :
    ∀ l, someArrGo (pureCb g) ctx coll l
      = .ok (l.any fun p => toBool (g ctx p.2 (.num p.1) coll)) := by
  intro l
  induction l with
  | nil => rfl
  | cons p rst ih =>
    cases hp : toBool (g ctx p.2 (.num p.1) coll) <;>
      simp [someArrGo, pureCb, hp, ih]

theorem everyArrGo_pure (g : JSVal → JSVal → JSVal → JSVal → JSVal) (ctx coll : JSVal) :
    ∀ l, everyArrGo (pureCb g) ctx coll l
      = .ok (l.all fun p => toBool (g ctx p.2 (.num p.1) coll)) := by
  intro l
  induction l with
  | nil => rfl
  | cons p rst ih =>
    cases hp : toBool (g ctx p.2 (.num p.1) coll) <;>
      simp [everyArrGo, pureCb, hp, ih]

end Turing.Enumerable

namespace Turing.Enumerable

/-! ### Claim theorems -/

/-- C1 counterexample: the callback throws the primitive string
"[object Object]" -- a value other than the Break sentinel -- and it
propagates out of the try-block, yet `each` swallows it and returns normally
instead of re-raising it: the catch's loose `e != global.enumerable.Break`
also matches this string (the Break object coerces to it via ToPrimitive). -/
theorem c1_counterexample :
    eachRaw (.arr [.num 1]) cbThrowObjString .undefined
      = .error (.val (.str "[object Object]"))
    ∧ (Thrown.val (.str "[object Object]")) ≠ Thrown.brk
    ∧ each (.arr [.num 1]) cbThrowObjString .undefined = .ok (.arr [.num 1]) :=
  ⟨rfl, fun h => Thrown.noConfusion h, rfl⟩

/-- C1 amended: `each`'s catch swallows exactly the values loosely equal to
the Break sentinel -- the sentinel itself and the primitive string
"[object Object]" -- returning the enumerable normally; every other
propagating value is re-raised to the caller unchanged; normal completion
returns the enumerable; and the Break sentinel itself never escapes `each`. -/
theorem c1_each_loose_break_protocol (e : JSVal) (cb : Cb) (ctx : JSVal) :
    (∀ t, eachRaw e cb ctx = .error t → looseEqBreak t = true →
      each e cb ctx = .ok e)
    ∧ (∀ t, eachRaw e cb ctx = .error t → looseEqBreak t = false →
      each e cb ctx = .error t)
    ∧ (eachRaw e cb ctx = .ok () → each e cb ctx = .ok e)
    ∧ each e cb ctx ≠ .error .brk
    ∧ looseEqBreak .brk = true
    ∧ (∀ v, looseEqBreak (.val v) = true ↔ v = .str "[object Object]") := by
  refine ⟨fun t h hl => ?_, fun t h hl => ?_, fun h => ?_, fun h => ?_, rfl, fun v => ?_⟩
  · unfold each; rw [h]; simp [hl]
  · unfold each; rw [h]; simp [hl]
  · unfold each; rw [h]
  · unfold each at h
    cases h' : eachRaw e cb ctx with
    | ok u => rw [h'] at h; exact Except.noConfusion h
    | error t =>
      rw [h'] at h
      have h2 : (if looseEqBreak t = true then Except.ok e
          else (Except.error t : Except Thrown JSVal)) = Except.error Thrown.brk := h
      cases hl : looseEqBreak t with
      | true => rw [hl] at h2; simp at h2
      | false =>
        rw [hl] at h2
        simp at h2
        subst h2
        simp [looseEqBreak] at hl
  · cases v with
    | str s => simp [looseEqBreak]
    | undefined => simp [looseEqBreak]
    | null => simp [looseEqBreak]
    | bool b => simp [looseEqBreak]
    | num n => simp [looseEqBreak]
    | arr xs => simp [looseEqBreak]
    | obj props => simp [looseEqBreak]

/-- C1 witness: a thrown Break is swallowed (the array is returned normally),
a thrown "[object Object]" is likewise swallowed, and a thrown "boom" is
re-raised unchanged. -/
theorem c1_each_loose_break_protocol_witness :
    each (.arr [.num 0, .num 1, .num 2]) cbBreakOnTruthy .undefined
      = .ok (.arr [.num 0, .num 1, .num 2])
    ∧ each (.arr [.num 1]) cbThrowObjString .undefined = .ok (.arr [.num 1])
    ∧ each (.arr [.num 0, .num 1]) cbThrowBoom .undefined
      = .error (.val (.str "boom")) :=
  ⟨(c1_each_loose_break_protocol (.arr [.num 0, .num 1, .num 2]) cbBreakOnTruthy
      .undefined).1 .brk rfl rfl,
   (c1_each_loose_break_protocol (.arr [.num 1]) cbThrowObjString .undefined).1
      (.val (.str "[object Object]")) rfl rfl,
   (c1_each_loose_break_protocol (.arr [.num 0, .num 1]) cbThrowBoom .undefined).2.1
      (.val (.str "boom")) rfl rfl⟩

/-- C6 counterexample: contrary to the claim, `each(null, f, ctx)` is not a
no-op returning normally: reading `null.forEach` in the dispatch throws a
TypeError, which the catch re-raises (it is not Break). -/
theorem c6_counterexample :
    each .null (pureCb idG) .undefined = .error (.val typeError)
    ∧ each .null (pureCb idG) .undefined ≠ .ok .null := by
  constructor
  · rfl
  · intro h
    exact Except.noConfusion h

/-- C6 amended: for every value that supports property access but lacks both
a usable numeric length and enumerable own keys -- numbers, booleans, and
empty foreign objects -- `each` performs a no-op traversal (zero callback
invocations, returning the enumerable normally); for `null` and `undefined`,
however, `each` raises a TypeError instead of returning normally. -/
theorem c6_amended_no_op_or_type_error (n : Int) (b : Bool) (cb : Cb) (ctx : JSVal) :
    invocations (.num n) ctx = .ok []
    ∧ each (.num n) cb ctx = .ok (.num n)
    ∧ invocations (.bool b) ctx = .ok []
    ∧ each (.bool b) cb ctx = .ok (.bool b)
    ∧ invocations (.obj []) ctx = .ok []
    ∧ each (.obj []) cb ctx = .ok (.obj [])
    ∧ each .null cb ctx = .error (.val typeError)
    ∧ each .undefined cb ctx = .error (.val typeError) :=
  ⟨rfl, rfl, rfl, rfl, rfl, rfl, rfl, rfl⟩

/-- C7: on the integer-index branch of `each` (numeric length, not a true
array), every attempted callback invocation has the collection itself as its
receiver, for every supplied context; on the keyed-mapping branch, every
invocation has the supplied context as its receiver. -/
theorem c7_receiver_binding (e ctx : JSVal) (invs : List Invocation) :
    (takesIndexBranch e = true → invocations e ctx = .ok invs →
      ∀ inv ∈ invs, inv.receiver = e)
    ∧ (takesKeyBranch e = true → invocations e ctx = .ok invs →
      ∀ inv ∈ invs, inv.receiver = ctx) := by
  constructor
  · intro hb hinv inv hm
    cases e with
    | null => exact absurd hb (by simp [takesIndexBranch])
    | undefined => exact absurd hb (by simp [takesIndexBranch])
    | arr xs => exact absurd hb (by simp [takesIndexBranch])
    | bool b => exact absurd hb (by simp [takesIndexBranch, getProp, isNumber])
    | num n => exact absurd hb (by simp [takesIndexBranch, getProp, isNumber])
    | str st =>
      simp [invocations, getProp, isNumber] at hinv
      rw [← hinv] at hm
      simp [List.mem_map] at hm
      obtain ⟨i, _, rfl⟩ := hm
      rfl
    | obj props =>
      have hb' : isNumber (getProp (.obj props) "length") = true := hb
      simp [invocations, hb'] at hinv
      rw [← hinv] at hm
      simp [List.mem_map] at hm
      obtain ⟨i, _, rfl⟩ := hm
      rfl
  · intro hb hinv inv hm
    cases e with
    | null => exact absurd hb (by simp [takesKeyBranch])
    | undefined => exact absurd hb (by simp [takesKeyBranch])
    | arr xs => exact absurd hb (by simp [takesKeyBranch])
    | str st => exact absurd hb (by simp [takesKeyBranch, getProp, isNumber])
    | bool b =>
      simp [invocations, getProp, isNumber] at hinv
      subst hinv
      exact absurd hm (List.not_mem_nil inv)
    | num n =>
      simp [invocations, getProp, isNumber] at hinv
      subst hinv
      exact absurd hm (List.not_mem_nil inv)
    | obj props =>
      have hb' : isNumber (getProp (.obj props) "length") = false := by
        have := hb
        simp [takesKeyBranch] at this
        exact this
      simp [invocations, hb'] at hinv
      rw [← hinv] at hm
      simp [List.mem_map] at hm
      obtain ⟨p, w, hp, heq⟩ := hm
      subst heq
      rfl

/-- C7 witness: on an array-like mapping with a numeric length the receivers
of both attempted invocations are the collection itself even though a string
context was supplied; on a keyed mapping the receiver is that context. -/
theorem c7_receiver_binding_witness :
    (invsD e7idx (.str "ctx")).map Invocation.receiver = [e7idx, e7idx]
    ∧ (invsD e7map (.str "ctx")).map Invocation.receiver = [.str "ctx"] := by
  constructor
  · have h := (c7_receiver_binding e7idx (.str "ctx") (invsD e7idx (.str "ctx"))).1 rfl rfl
    exact rfl
  · have h := (c7_receiver_binding e7map (.str "ctx") (invsD e7map (.str "ctx"))).2 rfl rfl
    exact rfl

end Turing.Enumerable

namespace Turing.Enumerable

/-- Helper: on any non-array input, `filter` takes the fallback and collects
`[indexOrKey, value]` pairs for the truthy elements of the iteration plan. -/
theorem filter_nonarr (e ctx : JSVal) (g : JSVal → JSVal → JSVal → JSVal → JSVal)
    (invs : List Invocation) (h1 : isArray e = false)
    (h2 : invocations e ctx = .ok invs) :
    filter e (pureCb g) ctx
      = .ok (.arr ((invs.filter fun inv =>
          toBool (g ctx inv.value inv.key inv.coll)).map fun inv =>
            .arr [inv.key, inv.value])) := by
  cases e with
  | arr xs => exact absurd h1 (by simp [isArray])
  | null => simp [invocations] at h2
  | undefined => simp [invocations] at h2
  | bool b =>
    rw [show filter (.bool b) (pureCb g) ctx
      = filterFallback (.bool b) (pureCb g) ctx from rfl, filterFallback_pure, h2]
    simp [isArray]
  | num n =>
    rw [show filter (.num n) (pureCb g) ctx
      = filterFallback (.num n) (pureCb g) ctx from rfl, filterFallback_pure, h2]
    simp [isArray]
  | str st =>
    rw [show filter (.str st) (pureCb g) ctx
      = filterFallback (.str st) (pureCb g) ctx from rfl, filterFallback_pure, h2]
    simp [isArray]
  | obj props =>
    rw [show filter (.obj props) (pureCb g) ctx
      = filterFallback (.obj props) (pureCb g) ctx from rfl, filterFallback_pure, h2]
    simp [isArray]

/-- Helper: on a true array, `filter` takes the native path and keeps the
bare truthy elements. -/
theorem filter_arr (xs : List JSVal) (ctx : JSVal)
    (g : JSVal → JSVal → JSVal → JSVal → JSVal) :
    filter (.arr xs) (pureCb g) ctx
      = .ok (.arr (((zipIdxFrom 0 xs).filter fun p =>
          toBool (g ctx p.2 (.num p.1) (.arr xs))).map Prod.snd)) := by
  rw [show filter (.arr xs) (pureCb g) ctx = filterArr xs (pureCb g) ctx from rfl]
  unfold filterArr
  rw [filterArrGo_pure]
  rfl

/-- C3: for a mapping input (anything but a true array), `filter` returns the
`[key, value]` pairs of the elements where the callback is truthy, while for
a true-array input it returns the bare matching values only. -/
theorem c3_filter_pairs_vs_bare (e ctx : JSVal)
    (g : JSVal → JSVal → JSVal → JSVal → JSVal) (invs : List Invocation) :
    (isArray e = false → invocations e ctx = .ok invs →
      filter e (pureCb g) ctx
        = .ok (.arr ((invs.filter fun inv =>
            toBool (g ctx inv.value inv.key inv.coll)).map fun inv =>
              .arr [inv.key, inv.value])))
    ∧ ∀ xs, filter (.arr xs) (pureCb g) ctx
        = .ok (.arr (((zipIdxFrom 0 xs).filter fun p =>
            toBool (g ctx p.2 (.num p.1) (.arr xs))).map Prod.snd)) :=
  ⟨fun h1 h2 => filter_nonarr e ctx g invs h1 h2, fun xs => filter_arr xs ctx g⟩

/-- C3 witness: filtering the mapping `{a: 1, b: 2}` for the value 2 yields
the single pair `["b", 2]`, while filtering the array `[1, 2, 3]` yields the
bare value `[2]`. -/
theorem c3_filter_pairs_vs_bare_witness :
    filter objAB (pureCb isTwoG) .undefined = .ok (.arr [.arr [.str "b", .num 2]])
    ∧ filter (.arr [.num 1, .num 2, .num 3]) (pureCb isTwoG) .undefined
      = .ok (.arr [.num 2]) := by
  constructor
  · have h := (c3_filter_pairs_vs_bare objAB .undefined isTwoG (invsD objAB .undefined)).1 rfl rfl
    exact h.trans rfl
  · have h := (c3_filter_pairs_vs_bare objAB .undefined isTwoG
      (invsD objAB .undefined)).2 [.num 1, .num 2, .num 3]
    exact h.trans rfl

/-- C8: `reject(s, f)` is exactly `filter` on the negated callback -- the
wrapper forwards `(value, indexOrKey, collection)` to `f` with the context as
receiver and negates the truthiness of its result, re-raising anything `f`
throws -- and on mapping inputs it therefore collects the `[key, value]`
pairs of exactly the elements where the negated predicate is truthy. -/
theorem c8_reject_is_negated_filter (e : JSVal) (f : Cb) (ctx : JSVal)
    (g : JSVal → JSVal → JSVal → JSVal → JSVal) (invs : List Invocation) :
    reject e f ctx
      = filter e (fun _this v k c =>
          match f ctx v k c with
          | .ok x => .ok (.bool (!toBool x))
          | .error t => .error t) ctx
    ∧ (isArray e = false → invocations e ctx = .ok invs →
        reject e (pureCb g) ctx
          = .ok (.arr ((invs.filter fun inv =>
              !toBool (g ctx inv.value inv.key inv.coll)).map fun inv =>
                .arr [inv.key, inv.value]))) := by
  constructor
  · rfl
  · intro h1 h2
    have heq : reject e (pureCb g) ctx
        = filter e (pureCb fun _r v k c => .bool (!toBool (g ctx v k c))) ctx := rfl
    rw [heq, filter_nonarr e ctx (fun _r v k c => .bool (!toBool (g ctx v k c))) invs h1 h2]
    rfl

/-- C8 witness: rejecting the value 2 from the mapping `{a: 1, b: 2}` yields
the single pair `["a", 1]` -- the same pairing edge case as `filter`. -/
theorem c8_reject_is_negated_filter_witness :
    reject objAB (pureCb isTwoG) .undefined = .ok (.arr [.arr [.str "a", .num 1]]) := by
  have h := (c8_reject_is_negated_filter objAB (pureCb isTwoG) .undefined isTwoG
    (invsD objAB .undefined)).2 rfl rfl
  exact h.trans rfl

end Turing.Enumerable

namespace Turing.Enumerable

/-! ### Helper lemmas for the native/fallback comparison -/

theorem zipIdxFrom_snd_mem {p : Nat × JSVal} : ∀ {n : Nat} {xs : List JSVal},
    p ∈ zipIdxFrom n xs → p.2 ∈ xs := by
  intro n xs
  induction xs generalizing n with
  | nil => intro h; exact absurd h (List.not_mem_nil p)
  | cons x rst ih =>
    intro h
    rw [zipIdxFrom] at h
    rcases List.mem_cons.mp h with h0 | h0
    · subst h0; exact List.mem_cons_self x rst
    · exact List.mem_cons_of_mem x (ih h0)

theorem mem_zipIdxFrom_of_mem {x : JSVal} : ∀ {xs : List JSVal} {n : Nat},
    x ∈ xs → ∃ i, (i, x) ∈ zipIdxFrom n xs := by
  intro xs
  induction xs with
  | nil => intro n h; exact absurd h (List.not_mem_nil x)
  | cons y rst ih =>
    intro n h
    rcases List.mem_cons.mp h with h0 | h0
    · subst h0; exact ⟨n, List.mem_cons_self _ _⟩
    · obtain ⟨i, hi⟩ := ih (n := n + 1) h0
      exact ⟨i, List.mem_cons_of_mem _ hi⟩

theorem any_map_comp (f : α → JSVal) (p : JSVal → Bool) : ∀ l : List α,
    (l.map f).any p = l.any fun x => p (f x) := by
  intro l
  induction l with
  | nil => rfl
  | cons x rst ih => simp [List.any_cons, ih]

theorem all_map_comp (f : α → JSVal) (p : JSVal → Bool) : ∀ l : List α,
    (l.map f).all p = l.all fun x => p (f x) := by
  intro l
  induction l with
  | nil => rfl
  | cons x rst ih => simp [List.all_cons, ih]

theorem getLast?_getD_of_all {l : List JSVal} {d : JSVal}
    (h : ∀ y ∈ l, y = d) : l.getLast?.getD d = d := by
  cases hl : l.getLast? with
  | none => rfl
  | some z => exact h z (List.mem_of_mem_getLast? hl)

theorem someRun_fst_toBool : ∀ (rs : List JSVal) (acc : JSVal), toBool acc = false →
    toBool (someRun acc rs).1 = rs.any toBool := by
  intro rs
  induction rs with
  | nil => intro acc hacc; simp [someRun, hacc]
  | cons x rst ih =>
    intro acc hacc
    cases hx : toBool x with
    | true => simp [someRun, hx]
    | false => simp [someRun, hx, ih x hx]

theorem allRun_fst_toBool : ∀ (rs : List JSVal) (acc : JSVal), toBool acc = true →
    toBool (allRun acc rs).1 = rs.all toBool := by
  intro rs
  induction rs with
  | nil => intro acc hacc; simp [allRun, hacc]
  | cons x rst ih =>
    intro acc hacc
    cases hx : toBool x with
    | true => simp [allRun, hx, ih x hx]
    | false => simp [allRun, hx]

/-- Helper: on any non-array input, `some` resolves to the fallback scan. -/
theorem some_nonarr (e : JSVal) (h : isArray e = false) (f : Cb) (ctx : JSVal) :
    some e (Option.some f) ctx = someFallback e f ctx := by
  cases e with
  | arr xs => exact absurd h (by simp [isArray])
  | _ => rfl

/-- Helper: on any non-array input, `all` resolves to the fallback scan. -/
theorem all_nonarr (e : JSVal) (h : isArray e = false) (f : Cb) (ctx : JSVal) :
    all e (Option.some f) ctx = allFallback e f ctx := by
  cases e with
  | arr xs => exact absurd h (by simp [isArray])
  | _ => rfl

end Turing.Enumerable

namespace Turing.Enumerable

/-- Helper: with a pure callback, the native path of `map` and the
`each`-based fallback agree on every true array. -/
theorem map_native_eq_fallback (xs : List JSVal) (ctx : JSVal)
    (g : JSVal → JSVal → JSVal → JSVal → JSVal) :
    mapArr xs (pureCb g) ctx = mapFallback (.arr xs) (pureCb g) ctx := by
  rw [mapFallback_pure]
  simp [mapArr, mapArrGo_pure, Except.map, invocations, List.map_map,
    Function.comp_def]

/-- Helper: with a pure callback, the native path of `filter` and the
`each`-based fallback agree on every true array (the fallback's `pushIndex`
is false there, so it pushes bare values too). -/
theorem filter_native_eq_fallback (xs : List JSVal) (ctx : JSVal)
    (g : JSVal → JSVal → JSVal → JSVal → JSVal) :
    filterArr xs (pureCb g) ctx = filterFallback (.arr xs) (pureCb g) ctx := by
  rw [filterFallback_pure]
  simp [filterArr, filterArrGo_pure, Except.map, invocations, isArray,
    List.filter_map, List.map_map, Function.comp_def]

/-- Helper: with a pure callback, the native fold of `reduce` and the
`each`-based fallback agree on every true array and memo. -/
theorem reduce_native_eq_fallback (xs : List JSVal) (ctx memo : JSVal)
    (h : JSVal → JSVal → JSVal → JSVal → JSVal → JSVal) :
    reduceArr xs memo (pureCb4 h) ctx
      = reduceFallback (.arr xs) memo (pureCb4 h) ctx := by
  rw [reduceFallback_pure]
  simp [reduceArr, reduceArrGo_pure, invocations, List.foldl_map,
    Function.comp_def]

/-- Helper: the native `indexOf` membership test and the `each`-based linear
scan agree on every true array and target. -/
theorem include_native_eq_fallback (xs : List JSVal) (t : JSVal) :
    Except.ok (includeArr xs t) = includeFallback (.arr xs) t := by
  have hinc : includeFallback (.arr xs) t
      = .ok ((someRun (.bool false)
          ((zipIdxFrom 0 xs).map fun p => JSVal.bool (strictEq p.2 t))).1) := by
    rw [includeFallback_spec]
    simp [invocations, List.map_map, Function.comp_def]
  rw [hinc]
  unfold includeArr
  cases hf : ((zipIdxFrom 0 xs).map fun p => JSVal.bool (strictEq p.2 t)).find? toBool with
  | some r =>
    rw [someRun_find?_some hf (JSVal.bool false)]
    have hr := List.find?_some hf
    have hmem := List.mem_of_find?_eq_some hf
    simp [List.mem_map] at hmem
    obtain ⟨i, v, hiv, hq⟩ := hmem
    have hstr : strictEq v t = true := by
      rw [← hq] at hr
      simpa [toBool] using hr
    have hany : xs.any (fun vv => strictEq vv t) = true :=
      List.any_eq_true.mpr ⟨v, zipIdxFrom_snd_mem (p := (i, v)) hiv, hstr⟩
    rw [← hq]
    simp [hany, hstr]
  | none =>
    rw [someRun_find?_none hf (JSVal.bool false)]
    have hall : ∀ y ∈ ((zipIdxFrom 0 xs).map fun p => JSVal.bool (strictEq p.2 t)),
        y = .bool false := by
      intro y hy
      simp [List.mem_map] at hy
      obtain ⟨i, v, hiv, hq⟩ := hy
      have hnp := List.find?_eq_none.mp hf _
        (List.mem_map_of_mem (fun p => JSVal.bool (strictEq p.2 t)) hiv)
      simp [toBool] at hnp
      rw [← hq]
      simp [hnp]
    have hany : xs.any (fun vv => strictEq vv t) = false := by
      rw [List.any_eq_false]
      intro x hx
      obtain ⟨i, hi⟩ := mem_zipIdxFrom_of_mem (n := 0) hx
      have hb := hall _ (List.mem_map_of_mem (fun p => JSVal.bool (strictEq p.2 t)) hi)
      simp at hb
      simp [hb]
    rw [hany, getLast?_getD_of_all hall]

/-- Helper: with a pure callback, the fallback `some` returns a raw value
whose truthiness equals the Boolean the native `some` returns. -/
theorem some_native_toBool_fallback (xs : List JSVal) (ctx : JSVal)
    (g : JSVal → JSVal → JSVal → JSVal → JSVal) :
    ∃ r, someFallback (.arr xs) (pureCb g) ctx = .ok r
      ∧ someArr xs (pureCb g) ctx = .ok (.bool (toBool r)) := by
  have hfb : someFallback (.arr xs) (pureCb g) ctx
      = .ok ((someRun (.bool false)
          ((zipIdxFrom 0 xs).map fun p => g ctx p.2 (.num p.1) (.arr xs))).1) := by
    rw [someFallback_pure]
    simp [invocations, List.map_map, Function.comp_def]
  refine ⟨_, hfb, ?_⟩
  have htb := someRun_fst_toBool
    ((zipIdxFrom 0 xs).map fun p => g ctx p.2 (.num p.1) (.arr xs)) (.bool false) rfl
  rw [someArr, someArrGo_pure, Except.map, htb, any_map_comp]

/-- Helper: with a pure callback, the fallback `all` returns a raw value
whose truthiness equals the Boolean the native `every` returns. -/
theorem all_native_toBool_fallback (xs : List JSVal) (ctx : JSVal)
    (g : JSVal → JSVal → JSVal → JSVal → JSVal) :
    ∃ r, allFallback (.arr xs) (pureCb g) ctx = .ok r
      ∧ everyArr xs (pureCb g) ctx = .ok (.bool (toBool r)) := by
  have hfb : allFallback (.arr xs) (pureCb g) ctx
      = .ok ((allRun (.bool true)
          ((zipIdxFrom 0 xs).map fun p => g ctx p.2 (.num p.1) (.arr xs))).1) := by
    rw [allFallback_pure]
    simp [invocations, List.map_map, Function.comp_def]
  refine ⟨_, hfb, ?_⟩
  have htb := allRun_fst_toBool
    ((zipIdxFrom 0 xs).map fun p => g ctx p.2 (.num p.1) (.arr xs)) (.bool true) rfl
  rw [everyArr, everyArrGo_pure, Except.map, htb, all_map_comp]

end Turing.Enumerable

namespace Turing.Enumerable

/-- C2 counterexample: on the ordered sequence `[2]` with the identity
callback, the native fast path of `some` yields the Boolean `true` while the
`each`-based fallback yields the raw value `2`, so the two paths do not
compute equal results for `some`. -/
theorem c2_counterexample :
    someArr [.num 2] (pureCb idG) .undefined = .ok (.bool true)
    ∧ someFallback (.arr [.num 2]) (pureCb idG) .undefined = .ok (.num 2)
    ∧ (Except.ok (JSVal.bool true) : Except Thrown JSVal) ≠ .ok (.num 2) := by
  refine ⟨rfl, rfl, fun h => ?_⟩
  exact JSVal.noConfusion (Except.ok.inj h)

/-- C2 amended: for every ordered sequence and pure callback, the native fast
path and the `each`-based fallback compute equal results for `map`, `filter`,
`reduce` and `include`, and both visit the elements in the same order with
identical `(value, index, collection)` arguments; for `some` and `all` the
two paths agree only up to ToBoolean -- the fallback returns the raw callback
value (Boolean-coerced by the native path), so the results are equal exactly
when the callback returns Booleans. -/
theorem c2_amended_native_fallback_equivalence (xs : List JSVal)
    (ctx memo t : JSVal) (g : JSVal → JSVal → JSVal → JSVal → JSVal)
    (h4 : JSVal → JSVal → JSVal → JSVal → JSVal → JSVal) :
    mapArr xs (pureCb g) ctx = mapFallback (.arr xs) (pureCb g) ctx
    ∧ filterArr xs (pureCb g) ctx = filterFallback (.arr xs) (pureCb g) ctx
    ∧ reduceArr xs memo (pureCb4 h4) ctx
        = reduceFallback (.arr xs) memo (pureCb4 h4) ctx
    ∧ Except.ok (includeArr xs t) = includeFallback (.arr xs) t
    ∧ (invsD (.arr xs) ctx).map (fun inv => (inv.value, inv.key, inv.coll))
        = (zipIdxFrom 0 xs).map (fun p => (p.2, JSVal.num p.1, JSVal.arr xs))
    ∧ (∃ r, someFallback (.arr xs) (pureCb g) ctx = .ok r
        ∧ someArr xs (pureCb g) ctx = .ok (.bool (toBool r)))
    ∧ (∃ r, allFallback (.arr xs) (pureCb g) ctx = .ok r
        ∧ everyArr xs (pureCb g) ctx = .ok (.bool (toBool r))) := by
  refine ⟨map_native_eq_fallback xs ctx g, filter_native_eq_fallback xs ctx g,
    reduce_native_eq_fallback xs ctx memo h4, include_native_eq_fallback xs t,
    ?_, some_native_toBool_fallback xs ctx g, all_native_toBool_fallback xs ctx g⟩
  simp [invsD, invocations, List.map_map, Function.comp_def, Except.toOption]

/-- C9: on the each-based fallback path (input not a true array) with a pure
callback, `some` returns the first truthy value the callback produced (not
the Boolean `true`), and `all` returns the first falsy value the callback
produced, or the last callback result when every result is truthy (not the
Booleans `false`/`true`); only the native array paths of `some`/`every`
guarantee a Boolean result. -/
theorem c9_fallback_raw_results (e ctx : JSVal)
    (g : JSVal → JSVal → JSVal → JSVal → JSVal) (hA : isArray e = false) :
    (∀ r, (resultsOf e ctx g).find? toBool = Option.some r →
      some e (Option.some (pureCb g)) ctx = .ok r)
    ∧ (∀ r, (resultsOf e ctx g).find? (fun x => !toBool x) = Option.some r →
      all e (Option.some (pureCb g)) ctx = .ok r)
    ∧ ((resultsOf e ctx g).find? (fun x => !toBool x) = Option.none →
      resultsOf e ctx g ≠ [] →
      all e (Option.some (pureCb g)) ctx
        = .ok ((resultsOf e ctx g).getLast?.getD (.bool true)))
    ∧ (∀ ys f ctx2 r, someArr ys f ctx2 = .ok r → ∃ b, r = .bool b)
    ∧ (∀ ys f ctx2 r, everyArr ys f ctx2 = .ok r → ∃ b, r = .bool b) := by
  refine ⟨?_, ?_, ?_, ?_, ?_⟩
  · intro r hr
    cases hI : invocations e ctx with
    | error v =>
      rw [show resultsOf e ctx g = [] by simp [resultsOf, hI]] at hr
      exact absurd hr (by simp)
    | ok invs =>
      have hres : resultsOf e ctx g
          = invs.map fun inv => g ctx inv.value inv.key inv.coll := by
        simp [resultsOf, hI]
      rw [hres] at hr
      rw [some_nonarr e hA (pureCb g) ctx, someFallback_pure, hI]
      simp [someRun_find?_some hr]
  · intro r hr
    cases hI : invocations e ctx with
    | error v =>
      rw [show resultsOf e ctx g = [] by simp [resultsOf, hI]] at hr
      exact absurd hr (by simp)
    | ok invs =>
      have hres : resultsOf e ctx g
          = invs.map fun inv => g ctx inv.value inv.key inv.coll := by
        simp [resultsOf, hI]
      rw [hres] at hr
      rw [all_nonarr e hA (pureCb g) ctx, allFallback_pure, hI]
      simp [allRun_find?_some hr]
  · intro hr hne
    cases hI : invocations e ctx with
    | error v =>
      exact absurd (show resultsOf e ctx g = [] by simp [resultsOf, hI]) hne
    | ok invs =>
      have hres : resultsOf e ctx g
          = invs.map fun inv => g ctx inv.value inv.key inv.coll := by
        simp [resultsOf, hI]
      rw [hres] at hr
      rw [all_nonarr e hA (pureCb g) ctx, allFallback_pure, hI, hres]
      simp [allRun_find?_none hr]
  · intro ys f ctx2 r h
    rw [someArr] at h
    cases hgo : someArrGo f ctx2 (.arr ys) (zipIdxFrom 0 ys) with
    | ok bv =>
      rw [hgo] at h
      simp [Except.map] at h
      exact ⟨bv, h.symm⟩
    | error t2 =>
      rw [hgo] at h
      simp [Except.map] at h
  · intro ys f ctx2 r h
    rw [everyArr] at h
    cases hgo : everyArrGo f ctx2 (.arr ys) (zipIdxFrom 0 ys) with
    | ok bv =>
      rw [hgo] at h
      simp [Except.map] at h
      exact ⟨bv, h.symm⟩
    | error t2 =>
      rw [hgo] at h
      simp [Except.map] at h

/-- C9 witness: on the mapping `{a: 2, b: 0}` with the identity callback,
`some` returns the raw value `2` (not `true`) and `all` returns the raw
value `0` (not `false`); on `{a: 5, b: 7}` `all` returns the last result
`7` (not `true`); and a native `some` result is a Boolean. -/
theorem c9_fallback_raw_results_witness :
    some e9mixed (Option.some (pureCb idG)) .undefined = .ok (.num 2)
    ∧ all e9mixed (Option.some (pureCb idG)) .undefined = .ok (.num 0)
    ∧ all e9truthy (Option.some (pureCb idG)) .undefined = .ok (.num 7)
    ∧ ∃ b, (JSVal.bool true) = JSVal.bool b := by
  refine ⟨?_, ?_, ?_, ?_⟩
  · exact ((c9_fallback_raw_results e9mixed .undefined idG rfl).1 (.num 2) rfl).trans rfl
  · exact ((c9_fallback_raw_results e9mixed .undefined idG rfl).2.1 (.num 0) rfl).trans rfl
  · exact ((c9_fallback_raw_results e9truthy .undefined idG rfl).2.2.1 rfl
      (List.cons_ne_nil _ _)).trans rfl
  · exact (c9_fallback_raw_results e9truthy .undefined idG rfl).2.2.2.1
      [.num 2] (pureCb idG) .undefined (.bool true) rfl

end Turing.Enumerable

namespace Turing.Enumerable

/-- C4 (code bug): the chainable pipeline of the claim works --
`chain([1,2,3,4]).filter(even).map(*10).values()` is `[20, 40]` -- but the
chainable `reject` does not: `reject`'s body calls `this.filter` with `this`
bound to the Chainer, which re-enters the wrapper's generated filter method
and ends up invoking the engine `filter` with the previous results array in
the callback position; the native filter then raises a TypeError instead of
storing the rejected elements. -/
theorem c4_chain_reject_type_error :
    (((chain (.arr [.num 1, .num 2, .num 3, .num 4])).filter evenNum .undefined).bind
        (fun c => c.map timesTen .undefined)).map Chainer.values
      = .ok (.arr [.num 20, .num 40])
    ∧ (chain (.arr [.num 1, .num 2, .num 3, .num 4])).reject evenNum .undefined
      = .threw (.val typeError) :=
  ⟨rfl, rfl⟩

/-- C5 counterexample: the aliases `select`, `inject` and `every` are not in
the chainable allow-list, so -- contrary to the claim -- they are not exposed
as chainable methods on the Chain Wrapper. -/
theorem c5_counterexample :
    "select" ∉ chainableMethods
    ∧ "inject" ∉ chainableMethods
    ∧ "every" ∉ chainableMethods := by
  refine ⟨?_, ?_, ?_⟩ <;> decide

/-- C5 amended: the chainable allow-list is exactly map, collect, detect,
filter, reduce, each, tail, rest, reject, pluck, any, some, all; the aliases
among them resolve to the identical implementations (collect = map,
rest = tail, any = some, both at the module level and on the Chain Wrapper);
the module aliases select = filter, inject = reduce and every = all exist but
are not chainable. -/
theorem c5_amended_chainable_allowlist :
    chainableMethods = ["map", "collect", "detect", "filter", "reduce", "each",
      "tail", "rest", "reject", "pluck", "any", "some", "all"]
    ∧ collect = map ∧ rest = tail ∧ any = some
    ∧ select = filter ∧ inject = reduce ∧ every = all
    ∧ Chainer.collect = Chainer.map ∧ Chainer.rest = Chainer.tail
    ∧ Chainer.any = Chainer.some
    ∧ "select" ∉ chainableMethods ∧ "inject" ∉ chainableMethods
    ∧ "every" ∉ chainableMethods
    ∧ ("map" ∈ chainableMethods ∧ "collect" ∈ chainableMethods
       ∧ "detect" ∈ chainableMethods ∧ "filter" ∈ chainableMethods
       ∧ "reduce" ∈ chainableMethods ∧ "each" ∈ chainableMethods
       ∧ "tail" ∈ chainableMethods ∧ "rest" ∈ chainableMethods
       ∧ "reject" ∈ chainableMethods ∧ "pluck" ∈ chainableMethods
       ∧ "any" ∈ chainableMethods ∧ "some" ∈ chainableMethods
       ∧ "all" ∈ chainableMethods) := by
  refine ⟨rfl, rfl, rfl, rfl, rfl, rfl, rfl, rfl, rfl, rfl, ?_, ?_, ?_, ?_⟩
  · decide
  · decide
  · decide
  · decide

end Turing.Enumerable

namespace Turing.Enumerable.FlattenModel

/-- Main allocation invariant of the flatten fold, by strong induction on the
size of the element list.  Starting from a state whose fresh counter is at
least `N` and a memo array whose id is at least `N`: the counter never
decreases, every id recorded as mutated was either already recorded or is at
least `N` (only allocated-after-`N` arrays are pushed to), and the result is
an array whose id is at least `N`. -/
theorem flattenInto_spec {α : Type} (fuel : Nat) :
    ∀ (xs : List (FV α)), sizeOf xs ≤ fuel →
    ∀ (memo : FV α) (st : AllocSt) (N : Nat),
      N ≤ st.next →
      (∃ jm em, memo = FV.arr jm em ∧ N ≤ jm) →
      st.next ≤ (flattenInto memo xs st).2.next
      ∧ (∀ i ∈ (flattenInto memo xs st).2.mutated, i ∈ st.mutated ∨ N ≤ i)
      ∧ (∃ j es, (flattenInto memo xs st).1 = FV.arr j es ∧ N ≤ j) := by
  induction fuel with
  | zero =>
    intro xs hs
    cases xs <;> simp at hs
  | succ n ih =>
    intro xs hs memo st N hN hmemo
    obtain ⟨jm, em, hm, hjm⟩ := hmemo
    subst hm
    cases xs with
    | nil =>
      simp only [flattenInto]
      exact ⟨le_refl _, fun i hi => Or.inl hi, ⟨jm, em, rfl, hjm⟩⟩
    | cons x rst =>
      cases x with
      | atom a =>
        have hsz : sizeOf rst ≤ n := by
          simp only [List.cons.sizeOf_spec, FV.atom.sizeOf_spec] at hs
          omega
        simp only [flattenInto, push]
        have IH := ih rst hsz (FV.arr jm (em ++ [FV.atom a]))
          ⟨st.next, jm :: st.mutated⟩ N hN ⟨jm, em ++ [FV.atom a], rfl, hjm⟩
        refine ⟨IH.1, ?_, IH.2.2⟩
        intro i hi
        rcases IH.2.1 i hi with h0 | h0
        · rcases List.mem_cons.mp h0 with h1 | h1
          · subst h1; exact Or.inr hjm
          · exact Or.inl h1
        · exact Or.inr h0
      | arr i0 ys =>
        have hsy : sizeOf ys ≤ n := by
          simp only [List.cons.sizeOf_spec, FV.arr.sizeOf_spec] at hs
          omega
        have hsr : sizeOf rst ≤ n := by
          simp only [List.cons.sizeOf_spec, FV.arr.sizeOf_spec] at hs
          omega
        rcases hys : flattenInto (FV.arr st.next []) ys ⟨st.next + 1, st.mutated⟩
          with ⟨fv, stA⟩
        have IH1 := ih ys hsy (FV.arr st.next []) ⟨st.next + 1, st.mutated⟩ N
          (by show N ≤ st.next + 1; omega) ⟨st.next, [], rfl, hN⟩
        rw [hys] at IH1
        obtain ⟨h1next, h1mut, jf, ef, hfv, hjf⟩ := IH1
        have hfv' : fv = FV.arr jf ef := hfv
        subst hfv'
        have h1next' : st.next + 1 ≤ stA.next := h1next
        simp only [flattenInto, flattenList, allocEmpty]
        rw [hys]
        simp only [concatArr]
        have IH2 := ih rst hsr (FV.arr stA.next (em ++ ef))
          ⟨stA.next + 1, stA.mutated⟩ N
          (by show N ≤ stA.next + 1; omega)
          ⟨stA.next, em ++ ef, rfl, by omega⟩
        have h2next : stA.next + 1
            ≤ (flattenInto (FV.arr stA.next (em ++ ef)) rst
                ⟨stA.next + 1, stA.mutated⟩).2.next := IH2.1
        refine ⟨by omega, ?_, IH2.2.2⟩
        intro i hi
        rcases IH2.2.1 i hi with h0 | h0
        · rcases h1mut i h0 with h1 | h1
          · exact Or.inl h1
          · exact Or.inr h1
        · exact Or.inr h0

/-- C10: `flatten` returns a newly allocated array -- its id is not the id of
the input array nor of any array nested in it -- and leaves the input and
every nested array unmodified: no id occurring in the input is ever the
target of an in-place `push`, so the input is structurally identical before
and after the call.  (`flattenList xs` models `flatten` applied to an array
with elements `xs`; `turing.core`'s `isArray` nesting test is modelled from
the spec, as that file is not under `src/`.) -/
theorem c10_flatten_fresh_result_input_unmodified {α : Type}
    (xs : List (FV α)) (n : Nat) (h : ∀ i ∈ idsOfList xs, i < n) :
    (∀ i ∈ (flattenList xs ⟨n, []⟩).2.mutated, i ∉ idsOfList xs)
    ∧ (∃ j es, (flattenList xs ⟨n, []⟩).1 = FV.arr j es ∧ j ∉ idsOfList xs) := by
  have hspec := flattenInto_spec (sizeOf xs) xs (le_refl _) (FV.arr n [])
    ⟨n + 1, []⟩ n (by show n ≤ n + 1; omega) ⟨n, [], rfl, le_refl n⟩
  simp only [flattenList, allocEmpty]
  obtain ⟨hnext, hmut, j, es, hj, hjn⟩ := hspec
  constructor
  · intro i hi
    rcases hmut i hi with h0 | h0
    · exact absurd h0 (List.not_mem_nil i)
    · intro hmem
      exact absurd (h i hmem) (by omega)
  · exact ⟨j, es, hj, fun hmem => absurd (h j hmem) (by omega)⟩

/-- C10 witness: flattening the sample `[[2, 4], [[6], 8]]` (array ids 0-2,
fresh counter 3) mutates only arrays allocated by the call itself and returns
an array whose id is not among the input's ids. -/
theorem c10_flatten_fresh_result_input_unmodified_witness :
    (∀ i ∈ (flattenList sample ⟨3, []⟩).2.mutated, i ∉ idsOfList sample)
    ∧ (∃ j es, (flattenList sample ⟨3, []⟩).1 = FV.arr j es
        ∧ j ∉ idsOfList sample) :=
  c10_flatten_fresh_result_input_unmodified sample 3 (by decide)

end Turing.Enumerable.FlattenModel
